import Mathlib

/-!
# Verification of the abi-coder core (`src/index.ts`)

A shallow embedding of the `Coder` class from `src/index.ts` (current
revision, the one with `ValueMap`-based entry points).  The two external
collaborators — the keccak256 hash (`sha3`) and the binary ABI codec
(`defaultAbiCoder`) — are not part of the repository; following the spec
they are treated as parameters: `sha3 : String → String` and an
`AbiCodec` structure.  JavaScript semantics are modelled explicitly:
`undefined` results are `Option.none` or a distinguished `undef : V`
value, thrown errors are `Option.none` results, `String.prototype`
operations act on the character sequence.
-/

namespace AbiCoder

/-- Model of JavaScript `String.prototype.substring(0, n)` / the first `n`
characters of a string (acting on the character sequence). -/
def strTake (s : String) (n : Nat) : String :=
  String.mk (s.data.take n)

/-- Model of JavaScript `String.prototype.substring(n)`: drop the first `n`
characters. -/
def strDrop (s : String) (n : Nat) : String :=
  String.mk (s.data.drop n)

/-- Model of JavaScript `s.startsWith(pre)` on the character sequence. -/
def jsStartsWith (s pre : String) : Bool :=
  pre.data.isPrefixOf s.data

/-- Model of JavaScript `Array.prototype.join(sep)`. -/
def jsJoin (sep : String) : List String → String
  | [] => ""
  | [x] => x
  | x :: y :: xs => x ++ sep ++ jsJoin sep (y :: xs)

/-- JavaScript array indexing `l[i]` where an out-of-bounds access yields
`undefined` (modelled by the supplied `undef` element). -/
def jsGet {V : Type} (undef : V) (l : List V) (i : Nat) : V :=
  (l.get? i).getD undef

/-- The embedding of the ethers `ParamType` as used by the source: a `name`,
a `type` string (e.g. `"uint256"`, `"tuple"`, `"tuple[3]"`), the tuple
`components` (of the base tuple, empty otherwise) and the `indexed` flag. -/
inductive Param where
  | mk (name : String) (type : String) (components : List Param) (indexed : Bool)

/-- The `name` field of a parameter. -/
def Param.name : Param → String
  | .mk n _ _ _ => n

/-- The `type` field of a parameter. -/
def Param.type : Param → String
  | .mk _ t _ _ => t

/-- The `components` field of a parameter. -/
def Param.components : Param → List Param
  | .mk _ _ c _ => c

/-- The `indexed` field of a parameter. -/
def Param.indexed : Param → Bool
  | .mk _ _ _ i => i

/-- The embedding of a `JsonFragment` entry of the interface description.
Fields that may be absent in the JSON (`undefined` in JS) are `Option`s. -/
structure Fragment where
  type : Option String
  name : Option String
  inputs : Option (List Param)
  outputs : Option (List Param)

mutual

/-- One entry of the `types` array built by `Coder.getSignature`
(`src/index.ts` lines 589-599): parameters whose type string starts with
`"tuple"` are rendered by recursing into their components and appending the
array-arity suffix (`input.type.substring('tuple'.length)`); all other
parameters contribute their literal type string. -/
def sigType : Param → String
  | .mk _ t comps _ =>
    if jsStartsWith t "tuple" then
      ("" ++ "(" ++ jsJoin "," (sigTypes comps) ++ ")") ++ strDrop t 5
    else
      t

/-- The `types` array of `Coder.getSignature`, one entry per parameter. -/
def sigTypes : List Param → List String
  | [] => []
  | p :: ps => sigType p :: sigTypes ps

end

/-- `Coder.getSignature` (`src/index.ts` lines 588-603): the canonical
signature string `name(type1,type2,...)`. -/
def getSignature (name : String) (inputs : List Param) : String :=
  name ++ "(" ++ jsJoin "," (sigTypes inputs) ++ ")"

/-- The expression `hash.substring(0, 10)` used for function selectors
(`src/index.ts` lines 332-333 and 548-550): the `0x`-prefixed 4-byte prefix
of the digest string. -/
def selectorOf (sha3 : String → String) (signature : String) : String :=
  strTake (sha3 signature) 10

/-- The full digest string used for event topics (`src/index.ts` lines
343-344, 462-463 and 577-579). -/
def topicOf (sha3 : String → String) (signature : String) : String :=
  sha3 signature

/-- The external binary ABI codec (`defaultAbiCoder`), a black box per the
spec; values have some type `V`. -/
structure AbiCodec (V : Type) where
  encode : List Param → List V → String
  decode : List Param → String → List V

/-- A JS object used as a value map: the entry list produced by
`Object.fromEntries` (later entries overwrite earlier ones on lookup). -/
abbrev ValueMap (V : Type) : Type := List (String × V)

/-- JS object lookup `m[k]`: the value of the *last* entry with key `k`
(later `Object.fromEntries` entries overwrite earlier ones), `undefined`
(here `undef`) when no entry has key `k`. -/
def mapLookup {V : Type} (undef : V) (m : ValueMap V) (k : String) : V :=
  match m.reverse.find? (fun e => decide (e.1 = k)) with
  | some e => e.2
  | none => undef

/-- `toValueMap` (`src/index.ts` lines 610-617): zip positional values with
the top-level parameter names.  In JS, `inputs[index]` for an index beyond
`inputs` is `undefined` and reading `.name` from it throws, hence the
`none` result when `values` is longer than `inputs`. -/
def toValueMap {V : Type} (values : List V) (inputs : List Param) :
    Option (ValueMap V) :=
  if values.length ≤ inputs.length then
    some (List.zipWith (fun v p => (p.name, v)) values inputs)
  else
    none

/-- `toValues` (`src/index.ts` lines 619-623): for each top-level parameter
in declaration order, look its name up in the value map; a missing key
yields the `undefined` placeholder `undef`. -/
def toValues {V : Type} (undef : V) (valueMap : ValueMap V)
    (inputs : List Param) : List V :=
  inputs.map (fun input => mapLookup undef valueMap input.name)

/-- `Coder.getFunctionByName` (`src/index.ts` lines 527-535): first entry
with `type === 'function'` and matching name; a `none` result models the
thrown `Error`. -/
def getFunctionByName (abi : List Fragment) (name : String) :
    Option Fragment :=
  abi.find? (fun item =>
    decide (item.type = some "function" ∧ item.name = some name))

/-- `Coder.getEventByName` (`src/index.ts` lines 559-567). -/
def getEventByName (abi : List Fragment) (name : String) : Option Fragment :=
  abi.find? (fun item =>
    decide (item.type = some "event" ∧ item.name = some name))

/-- `Coder.getFunctionBySelector` (`src/index.ts` lines 537-557): scan the
`function` and `error` fragments, skip the ones without a (truthy) name or
without inputs, and return the first whose recomputed selector matches. -/
def getFunctionBySelector (sha3 : String → String) (abi : List Fragment)
    (selector : String) : Option Fragment :=
  let functions := abi.filter (fun item =>
    decide (item.type = some "function" ∨ item.type = some "error"))
  functions.find? (fun func =>
    match func.name, func.inputs with
    | some n, some inputs =>
      decide (n ≠ "") &&
        decide (selectorOf sha3 (getSignature n inputs) = selector)
    | _, _ => false)

/-- `Coder.getEventByTopic` (`src/index.ts` lines 569-586).  The `topic`
argument is an `Option` because the only caller (`decodeEvent`) passes
`topics[0]`, which is `undefined` for an empty topics list; comparing a
digest string against `undefined` is always false. -/
def getEventByTopic (sha3 : String → String) (abi : List Fragment)
    (topic : Option String) : Option Fragment :=
  let events := abi.filter (fun item => decide (item.type = some "event"))
  events.find? (fun event =>
    match event.name, event.inputs with
    | some n, some inputs =>
      decide (n ≠ "") &&
        decide (some (topicOf sha3 (getSignature n inputs)) = topic)
    | _, _ => false)

/-- `Coder.getFunctionSelector` (`src/index.ts` lines 324-334). -/
def getFunctionSelector (sha3 : String → String) (abi : List Fragment)
    (name : String) : Option String := do
  let func ← getFunctionByName abi name
  let inputs ← func.inputs
  pure (selectorOf sha3 (getSignature name inputs))

/-- `Coder.getEventTopic` (`src/index.ts` lines 336-345). -/
def getEventTopic (sha3 : String → String) (abi : List Fragment)
    (name : String) : Option String := do
  let event ← getEventByName abi name
  let inputs ← event.inputs
  pure (topicOf sha3 (getSignature name inputs))

/-- `Coder.encodeFunction` (`src/index.ts` lines 492-506): 4-byte selector
(without its own `0x`, `substring(2, 10)` of the digest) concatenated with
the codec's encoded argument bytes (without their `0x`), under one `0x`. -/
def encodeFunction {V : Type} (sha3 : String → String) (codec : AbiCodec V)
    (undef : V) (abi : List Fragment) (name : String)
    (valueMap : ValueMap V) : Option String := do
  let func ← getFunctionByName abi name
  let jsonInputs ← func.inputs
  let signature := getSignature name jsonInputs
  let selector := strTake (strDrop (sha3 signature) 2) 8
  let values := toValues undef valueMap jsonInputs
  let argumentString := codec.encode jsonInputs values
  let argumentData := strDrop argumentString 2
  pure ("0x" ++ selector ++ argumentData)

/-- The `Event` record returned by `decodeEvent`. -/
structure Event (V : Type) where
  name : String
  inputs : List Param
  values : ValueMap V

/-- The `EventEncoding` record returned by `encodeEvent`. -/
structure EventEncoding where
  topics : List String
  data : String

/-- The single pass of `encodeEvent` (`src/index.ts` lines 465-475) that
reads `values[input.name]` for each input in order and pushes it to
`topicResult` when the input is indexed and to `dataResult` otherwise. -/
def splitValues {V : Type} (undef : V) (values : ValueMap V) :
    List Param → List V × List V
  | [] => ([], [])
  | input :: rest =>
    let (ts, ds) := splitValues undef values rest
    if input.indexed then
      (mapLookup undef values input.name :: ts, ds)
    else
      (ts, mapLookup undef values input.name :: ds)

/-- The `topicInputs.map((input, index) => encode([input],
[topicResult[index]]))` step of `encodeEvent` (`src/index.ts` lines
477-480): walking the inputs while indexing into `topicResult`
sequentially (an out-of-bounds index yields `undefined`). -/
def encodeTopics {V : Type} (undef : V) (codec : AbiCodec V) :
    List Param → List V → List String
  | [], _ => []
  | input :: rest, vs =>
    codec.encode [input] [jsGet undef vs 0] :: encodeTopics undef codec rest (vs.drop 1)

/-- `Coder.encodeEvent` (`src/index.ts` lines 455-490). -/
def encodeEvent {V : Type} (sha3 : String → String) (codec : AbiCodec V)
    (undef : V) (abi : List Fragment) (name : String)
    (values : ValueMap V) : Option EventEncoding := do
  let event ← getEventByName abi name
  let inputs ← event.inputs
  let eventSignature := getSignature name inputs
  let eventTopic := topicOf sha3 eventSignature
  let (topicResult, dataResult) := splitValues undef values inputs
  let topicInputs := inputs.filter (fun input => input.indexed)
  let dataTopics := encodeTopics undef codec topicInputs topicResult
  let topics := eventTopic :: dataTopics
  let dataInputs := inputs.filter (fun input => !input.indexed)
  let data := codec.encode dataInputs dataResult
  pure { topics := topics, data := data }

/-- The `topicInputs.map((input, index) => decode([input],
dataTopics[index]))` step of `decodeEvent` (`src/index.ts` lines 371-377):
each indexed input is decoded alone against the matching topic entry and
the first decoded value is kept.  When the topics run out, the external
codec receives `undefined` and throws, hence the `none` result. -/
def decodeTopics {V : Type} (undef : V) (codec : AbiCodec V) :
    List Param → List String → Option (List V)
  | [], _ => some []
  | _ :: _, [] => none
  | input :: rest, topic :: topics => do
    let param := jsGet undef (codec.decode [input] topic) 0
    let params ← decodeTopics undef codec rest topics
    pure (param :: params)

/-- The reassembly loop of `decodeEvent` (`src/index.ts` lines 385-396):
walk the inputs in declaration order, consuming the next decoded topic
value for an indexed input and the next decoded data value otherwise. -/
def mergeValues {V : Type} (undef : V) :
    List Param → List V → List V → List V
  | [], _, _ => []
  | input :: rest, topicResult, dataResult =>
    if input.indexed then
      jsGet undef topicResult 0 :: mergeValues undef rest (topicResult.drop 1) dataResult
    else
      jsGet undef dataResult 0 :: mergeValues undef rest topicResult (dataResult.drop 1)

/-- `Coder.decodeEvent` (`src/index.ts` lines 362-403). -/
def decodeEvent {V : Type} (sha3 : String → String) (codec : AbiCodec V)
    (undef : V) (abi : List Fragment) (topics : List String)
    (data : String) : Option (Event V) := do
  let event ← getEventByTopic sha3 abi (topics.get? 0)
  let dataTopics := topics.drop 1
  let inputs ← event.inputs
  let topicInputs := inputs.filter (fun input => input.indexed)
  let topicResult ← decodeTopics undef codec topicInputs dataTopics
  let dataInputs := inputs.filter (fun input => !input.indexed)
  let dataResult := codec.decode dataInputs data
  let n ← event.name
  if n = "" then none else
  let result := mergeValues undef inputs topicResult dataResult
  let values ← toValueMap result inputs
  pure { name := n, inputs := inputs, values := values }

/-- Modelled from the spec (§3 Data Model): the closed recursive parameter
type {Elementary, Tuple, FixedArray, DynamicArray} the spec describes;
used only to state the refinement claim about `getSignature`. -/
inductive ParamSum where
  | elem (tag : String)
  | tuple (comps : List ParamSum)
  | fixedArray (element : ParamSum) (arity : Nat)
  | dynArray (element : ParamSum)

mutual

/-- Modelled from the spec (§4.2): a parameter's canonical type string —
an Elementary parameter is its literal type tag, a Tuple is `(` +
comma-joined component strings + `)`, a FixedArray appends `[arity]` and a
DynamicArray appends `[]` to the element's string. -/
def canonicalType : ParamSum → String
  | .elem tag => tag
  | .tuple comps => "(" ++ canonicalJoin comps ++ ")"
  | .fixedArray element arity => canonicalType element ++ "[" ++ toString arity ++ "]"
  | .dynArray element => canonicalType element ++ "[]"

/-- Modelled from the spec (§4.2): the comma-joined list of canonical type
strings. -/
def canonicalJoin : List ParamSum → String
  | [] => ""
  | [p] => canonicalType p
  | p :: q :: ps => canonicalType p ++ "," ++ canonicalJoin (q :: ps)

end

/-- Modelled from the spec (§4.2): `signatureOf(name, params)` — `name`
followed by `(`, the comma-joined canonical type strings of the top-level
parameters, then `)`. -/
def specSignature (name : String) (params : List ParamSum) : String :=
  name ++ "(" ++ canonicalJoin params ++ ")"

mutual

/-- The bridge from the spec's closed parameter type to the source's
string-discriminated records: the `type` string concatenates the base tag
(`"tuple"` for any tuple-based parameter) with the array-arity suffixes,
and `components` holds the converted components of the base tuple (as in
the standard JSON interface format, where an array-of-tuples entry carries
the tuple's `components` alongside a `"tuple[...]"` type string). -/
def toParam : ParamSum → Param
  | .elem tag => .mk "" tag [] false
  | .tuple comps => .mk "" "tuple" (toParams comps) false
  | .fixedArray element arity =>
    .mk "" ((toParam element).type ++ "[" ++ toString arity ++ "]")
      (toParam element).components false
  | .dynArray element =>
    .mk "" ((toParam element).type ++ "[]") (toParam element).components false

/-- Pointwise `toParam` over a component list. -/
def toParams : List ParamSum → List Param
  | [] => []
  | p :: ps => toParam p :: toParams ps

end

mutual

/-- No elementary type tag in the tree starts with `"tuple"` (true of every
actual ABI base type: `uint256`, `address`, `bool`, `bytes32`, ...). -/
def goodTags : ParamSum → Bool
  | .elem tag => !jsStartsWith tag "tuple"
  | .tuple comps => goodTagsList comps
  | .fixedArray element _ => goodTags element
  | .dynArray element => goodTags element

/-- `goodTags` over a component list. -/
def goodTagsList : List ParamSum → Bool
  | [] => true
  | p :: ps => goodTags p && goodTagsList ps

end

/-- Lowercase hexadecimal digit. -/
def isHexLower (c : Char) : Bool :=
  (decide ('0' ≤ c) && decide (c ≤ '9')) || (decide ('a' ≤ c) && decide (c ≤ 'f'))

/-- The external hash contract from the spec (§4.3, §6): a digest string is
`0x` followed by 64 lowercase hex characters (32 bytes). -/
def WellFormedDigest (h : String) : Prop :=
  h.data.length = 66 ∧ strTake h 2 = "0x" ∧
    ∀ c ∈ (strDrop h 2).data, isHexLower c = true

/-- Whether a spec-level parameter is a tuple or an array over (an array
over ...) a tuple. -/
def isTupleBase : ParamSum → Bool
  | .elem _ => false
  | .tuple _ => true
  | .fixedArray element _ => isTupleBase element
  | .dynArray element => isTupleBase element

/-- The base tag of a spec-level parameter: the elementary tag, or
`"tuple"` for a tuple-based parameter. -/
def baseTag : ParamSum → String
  | .elem tag => tag
  | .tuple _ => "tuple"
  | .fixedArray element _ => baseTag element
  | .dynArray element => baseTag element

/-- The accumulated array-arity suffix (`[3][]...`) of a parameter. -/
def arrSuf : ParamSum → String
  | .elem _ => ""
  | .tuple _ => ""
  | .fixedArray element arity => arrSuf element ++ "[" ++ toString arity ++ "]"
  | .dynArray element => arrSuf element ++ "[]"

/-- The components of the base tuple of a parameter (empty for
elementary-based parameters). -/
def baseComps : ParamSum → List ParamSum
  | .elem _ => []
  | .tuple comps => comps
  | .fixedArray element _ => baseComps element
  | .dynArray element => baseComps element

/-! ## String basics -/

theorem str_ext {s t : String} (h : s.data = t.data) : s = t :=
  congrArg String.mk h

theorem strData_append (s t : String) : (s ++ t).data = s.data ++ t.data := by
  cases s; cases t; rfl

theorem str_empty_append (s : String) : "" ++ s = s :=
  str_ext (by simp [strData_append])

theorem str_append_empty (s : String) : s ++ "" = s :=
  str_ext (by simp [strData_append])

theorem str_append_assoc (a b c : String) : a ++ b ++ c = a ++ (b ++ c) :=
  str_ext (by simp [strData_append])

theorem strTake_data (s : String) (n : Nat) : (strTake s n).data = s.data.take n := rfl

theorem strDrop_data (s : String) (n : Nat) : (strDrop s n).data = s.data.drop n := rfl

theorem strDrop_tuple_prepend (s : String) : strDrop ("tuple" ++ s) 5 = s := by
  apply str_ext
  rw [strDrop_data, strData_append]
  show (['t', 'u', 'p', 'l', 'e'] ++ s.data).drop 5 = s.data
  rfl

theorem isPrefixOf_eq_true {α : Type} [BEq α] [LawfulBEq α] :
    ∀ (l₁ l₂ : List α), l₁.isPrefixOf l₂ = true ↔ ∃ t, l₂ = l₁ ++ t := by
  intro l₁
  induction l₁ with
  | nil => intro l₂; simp [List.isPrefixOf]
  | cons a as ih =>
    intro l₂
    cases l₂ with
    | nil => simp [List.isPrefixOf]
    | cons b bs =>
      simp only [List.isPrefixOf, Bool.and_eq_true, beq_iff_eq, ih,
        List.cons_append, List.cons.injEq]
      constructor
      · rintro ⟨hab, t, ht⟩; exact ⟨t, hab.symm, ht⟩
      · rintro ⟨t, hab, ht⟩; exact ⟨hab.symm, t, ht⟩

theorem jsStartsWith_prepend_self (s : String) :
    jsStartsWith ("tuple" ++ s) "tuple" = true := by
  rw [jsStartsWith]
  exact (isPrefixOf_eq_true _ _).2 ⟨s.data, by rw [strData_append]⟩

/-- The first occurrence of `'['` (if any) in an elementary-tag-headed type
string comes after the tag, so such a string cannot start with `"tuple"`
unless the tag itself does. -/
theorem isPrefixOf_append_bracket (tag suf : List Char)
    (h1 : "tuple".data.isPrefixOf tag = false)
    (h2 : suf = [] ∨ suf.head? = some '[') :
    "tuple".data.isPrefixOf (tag ++ suf) = false := by
  by_contra hcon
  rw [Bool.not_eq_false, isPrefixOf_eq_true] at hcon
  obtain ⟨t, ht⟩ := hcon
  rcases h2 with h2 | h2
  · subst h2
    rw [List.append_nil] at ht
    have : "tuple".data.isPrefixOf tag = true :=
      (isPrefixOf_eq_true _ _).2 ⟨t, ht⟩
    rw [this] at h1; exact Bool.noConfusion h1
  · by_cases hlen : 5 ≤ tag.length
    · have htake : tag.take 5 = "tuple".data := by
        have := congrArg (List.take 5) ht
        rw [List.take_append_of_le_length hlen] at this
        rw [this]
        have h5 : ("tuple".data).length ≤ 5 := by decide
        rw [List.take_append_of_le_length (by decide)]
        exact List.take_of_length_le (by decide)
      have : "tuple".data.isPrefixOf tag = true := by
        refine (isPrefixOf_eq_true _ _).2 ⟨tag.drop 5, ?_⟩
        conv_lhs => rw [← List.take_append_drop 5 tag, htake]
      rw [this] at h1; exact Bool.noConfusion h1
    · push_neg at hlen
      have hget : (tag ++ suf).get? tag.length = some '[' := by
        rw [List.get?_append_right (Nat.le_refl _), Nat.sub_self]
        cases suf with
        | nil => exact absurd h2 (by simp)
        | cons c cs => simpa using h2
      rw [ht, List.get?_append (by simpa using hlen)] at hget
      have : ∀ i, i < 5 → ("tuple".data).get? i ≠ some '[' := by decide
      exact this tag.length hlen hget

/-! ## Structure of `toParam` type strings -/

theorem toParam_type_eq : ∀ p : ParamSum, (toParam p).type = baseTag p ++ arrSuf p
  | .elem tag => by
    simp [toParam, baseTag, arrSuf, Param.type, str_append_empty]
  | .tuple comps => by
    simp [toParam, baseTag, arrSuf, Param.type, str_append_empty]
  | .fixedArray element arity => by
    show (toParam element).type ++ "[" ++ toString arity ++ "]" = _
    rw [toParam_type_eq element]
    simp [baseTag, arrSuf, str_append_assoc]
  | .dynArray element => by
    show (toParam element).type ++ "[]" = _
    rw [toParam_type_eq element]
    simp [baseTag, arrSuf, str_append_assoc]

theorem arrSuf_head : ∀ p : ParamSum,
    arrSuf p = "" ∨ (arrSuf p).data.head? = some '['
  | .elem _ => Or.inl rfl
  | .tuple _ => Or.inl rfl
  | .fixedArray element arity => by
    refine Or.inr ?_
    show (arrSuf element ++ "[" ++ toString arity ++ "]").data.head? = _
    rcases arrSuf_head element with h | h
    · rw [h, str_empty_append, strData_append, strData_append]
      rfl
    · rcases hd : (arrSuf element).data with _ | ⟨c, cs⟩
      · rw [hd] at h; exact absurd h (by simp)
      · rw [hd] at h
        have hc : c = '[' := by simpa using h
        simp [strData_append, hd, hc]
  | .dynArray element => by
    refine Or.inr ?_
    show (arrSuf element ++ "[]").data.head? = _
    rcases arrSuf_head element with h | h
    · rw [h, str_empty_append]
      rfl
    · rcases hd : (arrSuf element).data with _ | ⟨c, cs⟩
      · rw [hd] at h; exact absurd h (by simp)
      · rw [hd] at h
        have hc : c = '[' := by simpa using h
        simp [strData_append, hd, hc]

theorem baseTag_of_tupleBase : ∀ p : ParamSum, isTupleBase p = true →
    baseTag p = "tuple"
  | .tuple _, _ => rfl
  | .fixedArray element _, h => baseTag_of_tupleBase element h
  | .dynArray element, h => baseTag_of_tupleBase element h

theorem baseTag_not_tuple : ∀ p : ParamSum, goodTags p = true →
    isTupleBase p = false → jsStartsWith (baseTag p) "tuple" = false
  | .elem tag, h, _ => by simpa [goodTags, baseTag] using h
  | .fixedArray element _, h, hb => baseTag_not_tuple element h hb
  | .dynArray element, h, hb => baseTag_not_tuple element h hb

theorem type_not_startsWith_tuple (p : ParamSum) (h : goodTags p = true)
    (hb : isTupleBase p = false) :
    jsStartsWith (toParam p).type "tuple" = false := by
  rw [jsStartsWith, toParam_type_eq, strData_append]
  apply isPrefixOf_append_bracket
  · exact baseTag_not_tuple p h hb
  · rcases arrSuf_head p with h' | h'
    · exact Or.inl (by simp [h'])
    · exact Or.inr h'

theorem toParam_components_eq : ∀ p : ParamSum,
    (toParam p).components = toParams (baseComps p)
  | .elem _ => rfl
  | .tuple _ => rfl
  | .fixedArray element _ => toParam_components_eq element
  | .dynArray element => toParam_components_eq element

theorem toParam_eta (p : ParamSum) :
    toParam p = .mk "" (toParam p).type (toParam p).components false := by
  cases p <;> rfl

theorem canonical_of_tupleBase : ∀ p : ParamSum, isTupleBase p = true →
    canonicalType p = ("(" ++ canonicalJoin (baseComps p) ++ ")") ++ arrSuf p
  | .tuple comps, _ => by
    simp [canonicalType, baseComps, arrSuf, str_append_empty]
  | .fixedArray element arity, h => by
    show canonicalType element ++ "[" ++ toString arity ++ "]" = _
    rw [canonical_of_tupleBase element h]
    simp [baseComps, arrSuf, str_append_assoc]
  | .dynArray element, h => by
    show canonicalType element ++ "[]" = _
    rw [canonical_of_tupleBase element h]
    simp [baseComps, arrSuf, str_append_assoc]

theorem canonical_of_not_tupleBase : ∀ p : ParamSum, isTupleBase p = false →
    canonicalType p = (toParam p).type
  | .elem _, _ => rfl
  | .fixedArray element arity, h => by
    show canonicalType element ++ "[" ++ toString arity ++ "]" = _
    rw [canonical_of_not_tupleBase element h]
    rfl
  | .dynArray element, h => by
    show canonicalType element ++ "[]" = _
    rw [canonical_of_not_tupleBase element h]
    rfl

theorem jsJoin_map_canonical : ∀ ps : List ParamSum,
    jsJoin "," (List.map canonicalType ps) = canonicalJoin ps
  | [] => rfl
  | [_] => rfl
  | p :: q :: ps => by
    show canonicalType p ++ "," ++ jsJoin "," (List.map canonicalType (q :: ps)) = _
    rw [jsJoin_map_canonical (q :: ps)]
    rfl

mutual

/-- The source's `getSignature` rendering of a converted spec-level
parameter agrees with the spec's canonical type string, provided no
elementary tag starts with `"tuple"` (second conjunct: same statement for
the components of the parameter's base tuple). -/
theorem sigType_toParam : ∀ p : ParamSum, goodTags p = true →
    sigType (toParam p) = canonicalType p ∧
      sigTypes (toParams (baseComps p)) = List.map canonicalType (baseComps p)
  | .elem tag, h => by
    refine ⟨?_, rfl⟩
    have hgt : jsStartsWith tag "tuple" = false := by
      simpa [goodTags] using h
    simp [toParam, sigType, hgt, canonicalType]
  | .tuple comps, h => by
    have hcomps := sigTypes_toParams comps (by simpa [goodTagsList] using h)
    refine ⟨?_, hcomps⟩
    show sigType (.mk "" "tuple" (toParams comps) false) = _
    rw [sigType]
    have : jsStartsWith "tuple" "tuple" = true := by decide
    rw [this]
    simp only [if_true]
    rw [hcomps, jsJoin_map_canonical]
    show ("" ++ "(" ++ canonicalJoin comps ++ ")") ++ strDrop "tuple" 5 = _
    have h5 : strDrop "tuple" 5 = "" := rfl
    rw [h5, str_append_empty, str_empty_append]
    rfl
  | .fixedArray element arity, h => by
    have helem := sigType_toParam element h
    refine ⟨?_, helem.2⟩
    by_cases hb : isTupleBase element = true
    · have hbp : isTupleBase (ParamSum.fixedArray element arity) = true := hb
      conv_lhs => rw [toParam_eta (.fixedArray element arity)]
      rw [sigType]
      have hty : (toParam (ParamSum.fixedArray element arity)).type
          = "tuple" ++ arrSuf (ParamSum.fixedArray element arity) := by
        rw [toParam_type_eq, baseTag_of_tupleBase _ hbp]
      rw [hty, jsStartsWith_prepend_self]
      simp only [if_true]
      rw [strDrop_tuple_prepend, toParam_components_eq]
      have hbase : baseComps (ParamSum.fixedArray element arity) = baseComps element := rfl
      rw [hbase, helem.2, jsJoin_map_canonical, canonical_of_tupleBase _ hbp]
      rw [str_empty_append]
      rfl
    · have hb' : isTupleBase element = false := by
        cases hb2 : isTupleBase element with
        | false => rfl
        | true => exact absurd hb2 hb
      have hbp : isTupleBase (ParamSum.fixedArray element arity) = false := hb'
      conv_lhs => rw [toParam_eta (.fixedArray element arity)]
      rw [sigType]
      rw [type_not_startsWith_tuple _ h hbp]
      simp only [if_false, Bool.false_eq_true]
      rw [canonical_of_not_tupleBase _ hbp]
  | .dynArray element, h => by
    have helem := sigType_toParam element h
    refine ⟨?_, helem.2⟩
    by_cases hb : isTupleBase element = true
    · have hbp : isTupleBase (ParamSum.dynArray element) = true := hb
      conv_lhs => rw [toParam_eta (.dynArray element)]
      rw [sigType]
      have hty : (toParam (ParamSum.dynArray element)).type
          = "tuple" ++ arrSuf (ParamSum.dynArray element) := by
        rw [toParam_type_eq, baseTag_of_tupleBase _ hbp]
      rw [hty, jsStartsWith_prepend_self]
      simp only [if_true]
      rw [strDrop_tuple_prepend, toParam_components_eq]
      have hbase : baseComps (ParamSum.dynArray element) = baseComps element := rfl
      rw [hbase, helem.2, jsJoin_map_canonical, canonical_of_tupleBase _ hbp]
      rw [str_empty_append]
      rfl
    · have hb' : isTupleBase element = false := by
        cases hb2 : isTupleBase element with
        | false => rfl
        | true => exact absurd hb2 hb
      have hbp : isTupleBase (ParamSum.dynArray element) = false := hb'
      conv_lhs => rw [toParam_eta (.dynArray element)]
      rw [sigType]
      rw [type_not_startsWith_tuple _ h hbp]
      simp only [if_false, Bool.false_eq_true]
      rw [canonical_of_not_tupleBase _ hbp]

/-- Pointwise version of `sigType_toParam` over a parameter list. -/
theorem sigTypes_toParams : ∀ ps : List ParamSum, goodTagsList ps = true →
    sigTypes (toParams ps) = List.map canonicalType ps
  | [], _ => rfl
  | p :: ps, h => by
    have h' : goodTags p = true ∧ goodTagsList ps = true := by
      simpa [goodTagsList, Bool.and_eq_true] using h
    show sigType (toParam p) :: sigTypes (toParams ps) = _
    rw [(sigType_toParam p h'.1).1, sigTypes_toParams ps h'.2]
    rfl

end

/-- The source `getSignature` refines the spec's `signatureOf` on converted
parameter lists. -/
theorem getSignature_eq_specSignature (name : String) (params : List ParamSum)
    (h : goodTagsList params = true) :
    getSignature name (toParams params) = specSignature name params := by
  rw [getSignature, specSignature, sigTypes_toParams params h, jsJoin_map_canonical]

/-! ## Claim theorems -/

/-- C2: for every name and parameter list (with no elementary tag starting
in `"tuple"`, true of all ABI base types), the canonical signature produced
by `Coder.getSignature` is the name followed by `(`, the comma-joined
canonical type strings of the top-level parameters, and `)`, rendering an
Elementary parameter as its tag, a Tuple as `(`+components+`)`, a
FixedArray as element+`[arity]` and a DynamicArray as element+`[]`; in
particular `signatureOf("f", [DynamicArray(Tuple([bool]))]) = "f((bool)[])"`
and `signatureOf("f", [FixedArray(uint256,3)]) = "f(uint256[3])"`. -/
theorem C2_getSignature_canonical (name : String) (params : List ParamSum)
    (h : goodTagsList params = true) :
    getSignature name (toParams params) = specSignature name params ∧
      getSignature "f" (toParams [ParamSum.dynArray (.tuple [.elem "bool"])])
        = "f((bool)[])" ∧
      specSignature "f" [ParamSum.dynArray (.tuple [.elem "bool"])]
        = "f((bool)[])" ∧
      getSignature "f" (toParams [ParamSum.fixedArray (.elem "uint256") 3])
        = "f(uint256[3])" ∧
      specSignature "f" [ParamSum.fixedArray (.elem "uint256") 3]
        = "f(uint256[3])" :=
  ⟨getSignature_eq_specSignature name params h, rfl, rfl, rfl, rfl⟩

/-- Witness for C2 at a concrete input. -/
theorem C2_witness :
    goodTagsList [ParamSum.tuple [.elem "uint256", .elem "address"]] = true ∧
      getSignature "g" (toParams [ParamSum.tuple [.elem "uint256", .elem "address"]])
        = specSignature "g" [ParamSum.tuple [.elem "uint256", .elem "address"]] :=
  ⟨by decide,
    (C2_getSignature_canonical "g" [ParamSum.tuple [.elem "uint256", .elem "address"]]
      (by decide)).1⟩

/-- C10: calling `decodeEvent` with an empty topics list fails with the
event-lookup error (`topics[0]` is `undefined`, so `getEventByTopic`
matches no event fragment and fails), rather than crashing or returning a
partial result. -/
theorem C10_decodeEvent_empty_topics {V : Type} (sha3 : String → String)
    (codec : AbiCodec V) (undef : V) (abi : List Fragment) (data : String) :
    decodeEvent sha3 codec undef abi [] data = none ∧
      getEventByTopic sha3 abi none = none := by
  have hlook : getEventByTopic sha3 abi none = none := by
    rw [getEventByTopic, List.find?_eq_none]
    intro ev _
    rcases ev with ⟨t, n, ins, outs⟩
    rcases n with _ | n <;> rcases ins with _ | ins <;> simp [Fragment.name, Fragment.inputs]
  exact ⟨by rw [decodeEvent]; rw [show ([] : List String).get? 0 = none from rfl, hlook]; rfl,
    hlook⟩

/-- C8: under the external hash contract (`keccak256` renders as `0x` + 64
lowercase hex characters), the derived selector — as returned by
`getFunctionSelector` — is `0x` + 8 lowercase hex characters (4 bytes), the
derived topic — as returned by `getEventTopic` — is `0x` + 64 lowercase hex
characters (32 bytes), and the selector equals the first 4 bytes (first 10
characters of the rendering) of the topic of the same signature. -/
theorem C8_selector_topic_shape (sha3 : String → String)
    (hwf : ∀ s, WellFormedDigest (sha3 s)) (sig : String) :
    (selectorOf sha3 sig).data.length = 10 ∧
      strTake (selectorOf sha3 sig) 2 = "0x" ∧
      (∀ c ∈ (strDrop (selectorOf sha3 sig) 2).data, isHexLower c = true) ∧
      (topicOf sha3 sig).data.length = 66 ∧
      strTake (topicOf sha3 sig) 2 = "0x" ∧
      (∀ c ∈ (strDrop (topicOf sha3 sig) 2).data, isHexLower c = true) ∧
      selectorOf sha3 sig = strTake (topicOf sha3 sig) 10 ∧
      (∀ abi nm f ins, getFunctionByName abi nm = some f → f.inputs = some ins →
        getFunctionSelector sha3 abi nm = some (selectorOf sha3 (getSignature nm ins))) ∧
      (∀ abi nm f ins, getEventByName abi nm = some f → f.inputs = some ins →
        getEventTopic sha3 abi nm = some (topicOf sha3 (getSignature nm ins))) := by
  obtain ⟨hlen, hpre, hhex⟩ := hwf sig
  refine ⟨?_, ?_, ?_, hlen, hpre, hhex, rfl, ?_, ?_⟩
  · show ((sha3 sig).data.take 10).length = 10
    rw [List.length_take, hlen]
    decide
  · apply str_ext
    rw [← hpre]
    show ((sha3 sig).data.take 10).take 2 = (sha3 sig).data.take 2
    rw [List.take_take]
    norm_num
  · intro c hc
    apply hhex
    have hc' : c ∈ ((sha3 sig).data.take 10).drop 2 := hc
    rw [List.drop_take] at hc'
    exact List.take_subset _ _ hc'
  · intro abi nm f ins hf hins
    simp [getFunctionSelector, hf, hins]
  · intro abi nm f ins hf hins
    simp [getEventTopic, hf, hins]

/-- Witness for C8 with a concrete well-formed digest function. -/
theorem C8_witness :
    (selectorOf (fun _ =>
        "0xc5d2460186f7233c927e7db2dcc703c0e500b653ca82273b7bfad8045d85a470")
      "transfer(address,uint256)").data.length = 10 ∧
      selectorOf (fun _ =>
          "0xc5d2460186f7233c927e7db2dcc703c0e500b653ca82273b7bfad8045d85a470")
        "transfer(address,uint256)"
        = strTake (topicOf (fun _ =>
            "0xc5d2460186f7233c927e7db2dcc703c0e500b653ca82273b7bfad8045d85a470")
          "transfer(address,uint256)") 10 :=
  ⟨(C8_selector_topic_shape _ (fun _ => ⟨by decide, by decide, by decide⟩)
      "transfer(address,uint256)").1,
    (C8_selector_topic_shape _ (fun _ => ⟨by decide, by decide, by decide⟩)
      "transfer(address,uint256)").2.2.2.2.2.2.1⟩

/-! ## Value-map lemmas -/

theorem find?_append_eq {α : Type} (l₁ l₂ : List α) (p : α → Bool) :
    (l₁ ++ l₂).find? p =
      match l₁.find? p with
      | some x => some x
      | none => l₂.find? p := by
  induction l₁ with
  | nil => rfl
  | cons a l₁ ih =>
    cases hpa : p a with
    | true =>
      rw [List.cons_append, List.find?_cons_of_pos _ hpa, List.find?_cons_of_pos _ hpa]
    | false =>
      rw [List.cons_append, List.find?_cons_of_neg _ (by simp [hpa]),
        List.find?_cons_of_neg _ (by simp [hpa]), ih]

theorem mapLookup_cons {V : Type} (undef : V) (e : String × V) (m : ValueMap V)
    (k : String) :
    mapLookup undef (e :: m) k =
      match m.reverse.find? (fun x => decide (x.1 = k)) with
      | some x => x.2
      | none => if e.1 = k then e.2 else undef := by
  rw [mapLookup]
  rw [show (e :: m : List (String × V)).reverse = m.reverse ++ [e] from by simp]
  rw [find?_append_eq]
  rcases hf : m.reverse.find? (fun x => decide (x.1 = k)) with _ | x
  · by_cases hek : e.1 = k <;> simp [hf, List.find?, hek]
  · simp [hf]

theorem mapLookup_cons_ne {V : Type} (undef : V) (e : String × V)
    (m : ValueMap V) (k : String) (hk : e.1 ≠ k) :
    mapLookup undef (e :: m) k = mapLookup undef m k := by
  rw [mapLookup_cons, mapLookup]
  rcases hf : m.reverse.find? (fun x => decide (x.1 = k)) with _ | x
  · simp [hf, hk]
  · simp [hf]

theorem mapLookup_not_mem {V : Type} (undef : V) (m : ValueMap V) (k : String)
    (h : ∀ e ∈ m, e.1 ≠ k) : mapLookup undef m k = undef := by
  rw [mapLookup]
  have : m.reverse.find? (fun x => decide (x.1 = k)) = none := by
    rw [List.find?_eq_none]
    intro x hx
    simpa using h x (List.mem_reverse.1 hx)
  rw [this]

theorem zipWith_name_mem {V : Type} : ∀ (values : List V) (params : List Param)
    (e : String × V),
    e ∈ List.zipWith (fun v p => (p.name, v)) values params →
      e.1 ∈ params.map Param.name
  | _ :: vs, p :: ps, e, h => by
    rcases List.mem_cons.1 h with h | h
    · simp [h]
    · simp only [List.map_cons, List.mem_cons]
      exact Or.inr (zipWith_name_mem vs ps e h)
  | [], _, _, h => absurd h (by simp)
  | _ :: _, [], _, h => absurd h (by simp)

theorem toValues_zipWith {V : Type} (undef : V) :
    ∀ (params : List Param) (values : List V),
      (params.map Param.name).Nodup → values.length = params.length →
      toValues undef (List.zipWith (fun v p => (p.name, v)) values params)
        params = values := by
  intro params
  induction params with
  | nil =>
    intro values _ hlen
    rw [List.length_eq_zero.1 hlen]
    rfl
  | cons p ps ih =>
    intro values hnd hlen
    cases values with
    | nil => exact absurd hlen.symm (by simp)
    | cons v vs =>
      have hnd' : p.name ∉ ps.map Param.name ∧ (ps.map Param.name).Nodup := by
        simpa using hnd
      show mapLookup undef
          ((p.name, v) :: List.zipWith (fun v p => (p.name, v)) vs ps) p.name ::
          List.map (fun input => mapLookup undef
            ((p.name, v) :: List.zipWith (fun v p => (p.name, v)) vs ps) input.name) ps
          = v :: vs
      have hhead :
          mapLookup undef ((p.name, v) :: List.zipWith (fun v p => (p.name, v)) vs ps)
            p.name = v := by
        rw [mapLookup_cons]
        have hnone : (List.zipWith (fun (v : V) p => (p.name, v)) vs ps).reverse.find?
            (fun x => decide (x.1 = p.name)) = none := by
          rw [List.find?_eq_none]
          intro x hx
          have hx' := zipWith_name_mem vs ps x (List.mem_reverse.1 hx)
          simp only [decide_eq_true_eq]
          intro hxe
          exact hnd'.1 (hxe ▸ hx')
        rw [hnone]
        simp
      have htail : List.map
          (fun input => mapLookup undef
            ((p.name, v) :: List.zipWith (fun v p => (p.name, v)) vs ps) input.name) ps
          = List.map (fun input => mapLookup undef
            (List.zipWith (fun v p => (p.name, v)) vs ps) input.name) ps := by
        apply List.map_congr_left
        intro q hq
        apply mapLookup_cons_ne
        intro hqe
        refine hnd'.1 ?_
        rw [show p.name = q.name from hqe]
        exact List.mem_map_of_mem Param.name hq
      rw [hhead, htail]
      have hih := ih vs hnd'.2 (by simpa using hlen)
      exact congrArg (v :: ·) hih

/-- C3: for every parameter list with pairwise-distinct top-level names and
every positional value sequence of the same length,
`toValues(toValueMap(values, params), params)` equals `values`. -/
theorem C3_value_map_roundtrip {V : Type} (undef : V) (params : List Param)
    (values : List V) (hnd : (params.map Param.name).Nodup)
    (hlen : values.length = params.length) :
    toValueMap values params
        = some (List.zipWith (fun v p => (p.name, v)) values params) ∧
      toValues undef (List.zipWith (fun v p => (p.name, v)) values params)
        params = values :=
  ⟨by rw [toValueMap]; rw [if_pos (le_of_eq hlen)],
    toValues_zipWith undef params values hnd hlen⟩

/-- Witness for C3 at a concrete input. -/
theorem C3_witness :
    toValueMap [7, 9] [Param.mk "a" "uint256" [] false, Param.mk "b" "bool" [] false]
        = some [("a", 7), ("b", 9)] ∧
      toValues 0 [("a", 7), ("b", 9)]
        [Param.mk "a" "uint256" [] false, Param.mk "b" "bool" [] false] = [7, 9] :=
  C3_value_map_roundtrip 0
    [Param.mk "a" "uint256" [] false, Param.mk "b" "bool" [] false] [7, 9]
    (by decide) (by decide)

/-- C9: `toValues` never fails: it returns one value per top-level parameter
in declaration order, a parameter whose name is missing from the map gets
the explicit `undefined` placeholder, and the result is forwarded to the
external codec by `encodeFunction` (which succeeds whenever the fragment
and its inputs resolve, whatever the value map). -/
theorem C9_toValues_total {V : Type} (undef : V) (m : ValueMap V)
    (params : List Param) :
    (toValues undef m params).length = params.length ∧
      (∀ k p, params.get? k = some p → (∀ e ∈ m, e.1 ≠ p.name) →
        (toValues undef m params).get? k = some undef) ∧
      (∀ (sha3 : String → String) (codec : AbiCodec V) abi nm f ins,
        getFunctionByName abi nm = some f → f.inputs = some ins →
        encodeFunction sha3 codec undef abi nm m
          = some ("0x" ++ strTake (strDrop (sha3 (getSignature nm ins)) 2) 8
              ++ strDrop (codec.encode ins (toValues undef m ins)) 2)) := by
  refine ⟨by simp [toValues], ?_, ?_⟩
  · intro k p hk hmiss
    rw [toValues, List.get?_map, hk]
    show some (mapLookup undef m p.name) = some undef
    rw [mapLookup_not_mem undef m p.name hmiss]
  · intro sha3 codec abi nm f ins hf hins
    simp [encodeFunction, hf, hins]

/-- Witness for C9 at a concrete input (the key `"b"` is absent from the
map, so position 1 gets the placeholder). -/
theorem C9_witness :
    (toValues 0 [("a", 4)]
        [Param.mk "a" "uint256" [] false, Param.mk "b" "bool" [] false]).length = 2 ∧
      (toValues 0 [("a", 4)]
        [Param.mk "a" "uint256" [] false, Param.mk "b" "bool" [] false]).get? 1
        = some 0 :=
  ⟨(C9_toValues_total 0 [("a", 4)]
      [Param.mk "a" "uint256" [] false, Param.mk "b" "bool" [] false]).1,
    (C9_toValues_total 0 [("a", 4)]
      [Param.mk "a" "uint256" [] false, Param.mk "b" "bool" [] false]).2.1
      1 (Param.mk "b" "bool" [] false) rfl (by decide)⟩

/-- C6: each lookup entry point fails (models the thrown `NotFound` error)
when no fragment of the required kind matches: `getFunctionByName` (and
hence `getFunctionSelector` and `encodeFunction`) for an absent function
name, `getEventByName` (and hence `getEventTopic` and `encodeEvent`) for an
absent event name, `getFunctionBySelector` for an unmatched selector and
`getEventByTopic` for an unmatched topic; and `getFunctionByName` returns
the first entry with kind function and matching name when one exists. -/
theorem C6_lookup_not_found {V : Type} (sha3 : String → String)
    (codec : AbiCodec V) (undef : V) (abi : List Fragment)
    (nm sel topic : String) (vm : ValueMap V) :
    ((∀ f ∈ abi, ¬(f.type = some "function" ∧ f.name = some nm)) →
        getFunctionByName abi nm = none ∧
          getFunctionSelector sha3 abi nm = none ∧
          encodeFunction sha3 codec undef abi nm vm = none) ∧
      ((∀ f ∈ abi, ¬(f.type = some "event" ∧ f.name = some nm)) →
        getEventByName abi nm = none ∧
          getEventTopic sha3 abi nm = none ∧
          encodeEvent sha3 codec undef abi nm vm = none) ∧
      ((∀ f ∈ abi, (f.type = some "function" ∨ f.type = some "error") →
          ∀ n ins, f.name = some n → n ≠ "" → f.inputs = some ins →
          selectorOf sha3 (getSignature n ins) ≠ sel) →
        getFunctionBySelector sha3 abi sel = none) ∧
      ((∀ f ∈ abi, f.type = some "event" →
          ∀ n ins, f.name = some n → n ≠ "" → f.inputs = some ins →
          topicOf sha3 (getSignature n ins) ≠ topic) →
        getEventByTopic sha3 abi (some topic) = none) ∧
      (∀ pre f post, abi = pre ++ f :: post → f.type = some "function" →
        f.name = some nm →
        (∀ g ∈ pre, ¬(g.type = some "function" ∧ g.name = some nm)) →
        getFunctionByName abi nm = some f) := by
  refine ⟨?_, ?_, ?_, ?_, ?_⟩
  · intro habs
    have hname : getFunctionByName abi nm = none := by
      rw [getFunctionByName, List.find?_eq_none]
      intro f hf
      simpa using habs f hf
    exact ⟨hname, by simp [getFunctionSelector, hname],
      by simp [encodeFunction, hname]⟩
  · intro habs
    have hname : getEventByName abi nm = none := by
      rw [getEventByName, List.find?_eq_none]
      intro f hf
      simpa using habs f hf
    exact ⟨hname, by simp [getEventTopic, hname], by simp [encodeEvent, hname]⟩
  · intro habs
    rw [getFunctionBySelector, List.find?_eq_none]
    intro f hf
    have hmem := (List.mem_filter.1 hf).1
    have hkind : f.type = some "function" ∨ f.type = some "error" := by
      have := (List.mem_filter.1 hf).2
      simpa using this
    rcases f with ⟨t, n, ins, outs⟩
    rcases n with _ | n
    · simp
    · rcases ins with _ | ins
      · simp
      · intro hcontra
        have hc : (decide (n ≠ "")
            && decide (selectorOf sha3 (getSignature n ins) = sel)) = true := hcontra
        rw [Bool.and_eq_true, decide_eq_true_eq, decide_eq_true_eq] at hc
        exact habs _ hmem hkind n ins rfl hc.1 rfl hc.2
  · intro habs
    rw [getEventByTopic, List.find?_eq_none]
    intro f hf
    have hmem := (List.mem_filter.1 hf).1
    have hkind : f.type = some "event" := by
      have := (List.mem_filter.1 hf).2
      simpa using this
    rcases f with ⟨t, n, ins, outs⟩
    rcases n with _ | n
    · simp
    · rcases ins with _ | ins
      · simp
      · intro hcontra
        have hc : (decide (n ≠ "")
            && decide (some (topicOf sha3 (getSignature n ins)) = some topic)) = true :=
          hcontra
        rw [Bool.and_eq_true, decide_eq_true_eq, decide_eq_true_eq] at hc
        exact habs _ hmem hkind n ins rfl hc.1 rfl (Option.some_inj.1 hc.2)
  · intro pre f post hsplit hkind hfname hpre
    rw [getFunctionByName, hsplit, find?_append_eq]
    have hprenone : pre.find?
        (fun item => decide (item.type = some "function" ∧ item.name = some nm))
        = none := by
      rw [List.find?_eq_none]
      intro g hg
      simpa using hpre g hg
    rw [hprenone]
    exact List.find?_cons_of_pos _ (by simp [hkind, hfname])

/-- Witness for C6 at concrete inputs: an interface with only an event
fails all function-name lookups and an unmatched topic lookup, and
`getFunctionByName` skips a leading event to return the function. -/
theorem C6_witness :
    getFunctionByName [Fragment.mk (some "event") (some "E") (some []) none] "f"
        = none ∧
      getFunctionSelector id
        [Fragment.mk (some "event") (some "E") (some []) none] "f" = none ∧
      getEventByTopic id
        [Fragment.mk (some "event") (some "E") (some []) none] (some "zz") = none ∧
      getFunctionByName
        [Fragment.mk (some "event") (some "E") (some []) none,
          Fragment.mk (some "function") (some "f") (some []) none] "f"
        = some (Fragment.mk (some "function") (some "f") (some []) none) := by
  have habs1 : ∀ f ∈ [Fragment.mk (some "event") (some "E") (some []) none],
      ¬(f.type = some "function" ∧ f.name = some "f") := by decide
  have habs4 : ∀ f ∈ [Fragment.mk (some "event") (some "E") (some []) none],
      f.type = some "event" →
      ∀ n ins, f.name = some n → n ≠ "" → f.inputs = some ins →
      topicOf id (getSignature n ins) ≠ "zz" := by
    intro f hf _ n ins hn _ hins
    rcases List.mem_singleton.1 hf
    have hn' : n = "E" := by
      have : some "E" = some n := hn
      exact (Option.some_inj.1 this).symm
    have hins' : ins = ([] : List Param) := by
      have : some ([] : List Param) = some ins := hins
      exact (Option.some_inj.1 this).symm
    rw [hn', hins']
    decide
  have T1 := C6_lookup_not_found (V := Nat) id
    (AbiCodec.mk (fun _ _ => "") (fun _ _ => [])) 0
    [Fragment.mk (some "event") (some "E") (some []) none] "f" "s" "zz" []
  have T2 := C6_lookup_not_found (V := Nat) id
    (AbiCodec.mk (fun _ _ => "") (fun _ _ => [])) 0
    [Fragment.mk (some "event") (some "E") (some []) none,
      Fragment.mk (some "function") (some "f") (some []) none] "f" "s" "zz" []
  exact ⟨(T1.1 habs1).1, (T1.1 habs1).2.1, T1.2.2.2.1 habs4,
    T2.2.2.2.2 [Fragment.mk (some "event") (some "E") (some []) none]
      (Fragment.mk (some "function") (some "f") (some []) none) [] rfl rfl rfl
      (by decide)⟩

/-- C7: for a function fragment resolvable by name, `encodeFunction`
returns the 4-byte selector concatenated with the external codec's encoded
argument bytes as a single `0x`-prefixed hex string, and its first 10
characters equal `getFunctionSelector(name)` (given the external hash
contract for this signature's digest). -/
theorem C7_encodeFunction_layout {V : Type} (sha3 : String → String)
    (codec : AbiCodec V) (undef : V) (abi : List Fragment) (nm : String)
    (vm : ValueMap V) (f : Fragment) (ins : List Param)
    (hf : getFunctionByName abi nm = some f) (hins : f.inputs = some ins)
    (hwf : WellFormedDigest (sha3 (getSignature nm ins))) :
    encodeFunction sha3 codec undef abi nm vm
        = some ("0x" ++ strTake (strDrop (sha3 (getSignature nm ins)) 2) 8
            ++ strDrop (codec.encode ins (toValues undef vm ins)) 2) ∧
      ∀ out, encodeFunction sha3 codec undef abi nm vm = some out →
        getFunctionSelector sha3 abi nm = some (strTake out 10) := by
  obtain ⟨hlen, hpre, _⟩ := hwf
  have henc : encodeFunction sha3 codec undef abi nm vm
      = some ("0x" ++ strTake (strDrop (sha3 (getSignature nm ins)) 2) 8
          ++ strDrop (codec.encode ins (toValues undef vm ins)) 2) := by
    simp [encodeFunction, hf, hins]
  refine ⟨henc, ?_⟩
  intro out hout
  have hout' : out = "0x" ++ strTake (strDrop (sha3 (getSignature nm ins)) 2) 8
      ++ strDrop (codec.encode ins (toValues undef vm ins)) 2 :=
    (Option.some_inj.1 (henc ▸ hout)).symm
  have hsel : getFunctionSelector sha3 abi nm
      = some (selectorOf sha3 (getSignature nm ins)) := by
    simp [getFunctionSelector, hf, hins]
  rw [hsel, hout']
  refine congrArg some (str_ext ?_)
  rw [show (selectorOf sha3 (getSignature nm ins)).data
      = (sha3 (getSignature nm ins)).data.take 10 from rfl]
  rw [strTake_data, strData_append, strData_append]
  have hdata2 : (sha3 (getSignature nm ins)).data.take 2 = ['0', 'x'] := by
    have := congrArg String.data hpre
    rw [strTake_data] at this
    exact this
  have hlen10 : (("0x".data
      ++ (strTake (strDrop (sha3 (getSignature nm ins)) 2) 8).data)).length = 10 := by
    rw [List.length_append, strTake_data, strDrop_data, List.length_take,
      List.length_drop, hlen]
    rfl
  rw [List.append_assoc]
  rw [← List.append_assoc "0x".data]
  rw [List.take_left' hlen10]
  rw [show (10 : Nat) = 2 + 8 from rfl, List.take_add, hdata2]
  rfl

/-- Witness for C7 at a concrete input. -/
theorem C7_witness :
    encodeFunction
        (fun _ => "0xc5d2460186f7233c927e7db2dcc703c0e500b653ca82273b7bfad8045d85a470")
        (AbiCodec.mk (fun _ _ => "0xabcd") (fun _ _ => [])) 0
        [Fragment.mk (some "function") (some "f") (some []) none] "f" []
        = some ("0x"
            ++ strTake (strDrop
              "0xc5d2460186f7233c927e7db2dcc703c0e500b653ca82273b7bfad8045d85a470" 2) 8
            ++ strDrop "0xabcd" 2) ∧
      getFunctionSelector
        (fun _ => "0xc5d2460186f7233c927e7db2dcc703c0e500b653ca82273b7bfad8045d85a470")
        [Fragment.mk (some "function") (some "f") (some []) none] "f"
        = some (strTake ("0x"
            ++ strTake (strDrop
              "0xc5d2460186f7233c927e7db2dcc703c0e500b653ca82273b7bfad8045d85a470" 2) 8
            ++ strDrop "0xabcd" 2) 10) := by
  have T := C7_encodeFunction_layout
    (fun _ => "0xc5d2460186f7233c927e7db2dcc703c0e500b653ca82273b7bfad8045d85a470")
    (AbiCodec.mk (fun _ _ => "0xabcd") (fun _ _ => [])) 0
    [Fragment.mk (some "function") (some "f") (some []) none] "f" []
    (Fragment.mk (some "function") (some "f") (some []) none) [] rfl rfl
    ⟨by decide, by decide, by decide⟩
  exact ⟨T.1, T.2 _ T.1⟩

/-- C5 counterexample: an interface containing a function fragment named
`""` with usable inputs.  `getFunctionSelector ""` succeeds, but resolving
the returned selector fails, because `getFunctionBySelector` skips
fragments with a falsy name — so the by-selector lookup does *not* succeed
as the claim states (with the identity digest function, which is even
injective, so no hash collision is involved). -/
theorem C5_counterexample :
    getFunctionSelector id
        [Fragment.mk (some "function") (some "") (some []) none] "" = some "()" ∧
      getFunctionBySelector id
        [Fragment.mk (some "function") (some "") (some []) none] "()" = none :=
  ⟨rfl, rfl⟩

/-- C5 (amended): for every interface containing a function fragment with a
*nonempty* name and usable inputs (so `getFunctionSelector` succeeds), and
whose candidate (function/error) fragments have no selector collision with
that name at the derived selector — the external hash contract the spec
assumes — the by-selector resolution succeeds and returns a fragment whose
name equals `name`. -/
theorem C5_selector_roundtrip (sha3 : String → String) (abi : List Fragment)
    (nm : String) (hnm : nm ≠ "") (sel : String)
    (hsel : getFunctionSelector sha3 abi nm = some sel)
    (hcoll : ∀ g ∈ abi, (g.type = some "function" ∨ g.type = some "error") →
      ∀ n ins, g.name = some n → n ≠ "" → g.inputs = some ins →
      selectorOf sha3 (getSignature n ins) = sel → n = nm) :
    ∃ g, getFunctionBySelector sha3 abi sel = some g ∧ g.name = some nm := by
  rcases hfind : getFunctionByName abi nm with _ | f
  · rw [getFunctionSelector, hfind] at hsel
    exact absurd hsel (by simp)
  rcases hins : f.inputs with _ | ins
  · rw [getFunctionSelector, hfind] at hsel
    simp only [Option.bind_eq_bind, Option.some_bind, hins] at hsel
    exact absurd hsel (by simp)
  have hself : selectorOf sha3 (getSignature nm ins) = sel := by
    rw [getFunctionSelector, hfind] at hsel
    simp only [Option.bind_eq_bind, Option.some_bind, hins] at hsel
    simpa using hsel
  have hfprop : f.type = some "function" ∧ f.name = some nm := by
    have := List.find?_some hfind
    simpa using this
  have hfmem : f ∈ abi := List.mem_of_find?_eq_some hfind
  have hfilter : f ∈ abi.filter (fun item =>
      decide (item.type = some "function" ∨ item.type = some "error")) :=
    List.mem_filter.2 ⟨hfmem, by simp [hfprop.1]⟩
  have hpf : (fun func =>
      match func.name, func.inputs with
      | some n, some inputs =>
        decide (n ≠ "") &&
          decide (selectorOf sha3 (getSignature n inputs) = sel)
      | _, _ => false) f = true := by
    rcases f with ⟨ftype, fname, finputs, fouts⟩
    have hn : fname = some nm := hfprop.2
    have hi : finputs = some ins := hins
    subst hn; subst hi
    show (decide (nm ≠ "") && decide (selectorOf sha3 (getSignature nm ins) = sel))
        = true
    rw [Bool.and_eq_true, decide_eq_true_eq, decide_eq_true_eq]
    exact ⟨hnm, hself⟩
  have hsome : ((abi.filter (fun item =>
      decide (item.type = some "function" ∨ item.type = some "error"))).find?
      (fun func =>
        match func.name, func.inputs with
        | some n, some inputs =>
          decide (n ≠ "") &&
            decide (selectorOf sha3 (getSignature n inputs) = sel)
        | _, _ => false)).isSome := by
    rw [List.find?_isSome]
    exact ⟨f, hfilter, hpf⟩
  obtain ⟨g, hg⟩ := Option.isSome_iff_exists.1 hsome
  refine ⟨g, hg, ?_⟩
  have hgp := List.find?_some hg
  have hgmem := List.mem_of_find?_eq_some hg
  have hgabi : g ∈ abi := (List.mem_filter.1 hgmem).1
  have hgkind : g.type = some "function" ∨ g.type = some "error" := by
    have := (List.mem_filter.1 hgmem).2
    simpa using this
  rcases g with ⟨gt, gn, gi, go⟩
  rcases gn with _ | n
  · exact absurd hgp (by simp)
  rcases gi with _ | gins
  · exact absurd hgp (by simp)
  have hc : (decide (n ≠ "")
      && decide (selectorOf sha3 (getSignature n gins) = sel)) = true := hgp
  rw [Bool.and_eq_true, decide_eq_true_eq, decide_eq_true_eq] at hc
  have hname := hcoll _ hgabi hgkind n gins rfl hc.1 rfl hc.2
  simp [Fragment.name, hname]

/-- Witness for the amended C5 at a concrete input. -/
theorem C5_witness :
    (getFunctionBySelector id
        [Fragment.mk (some "function") (some "f") (some []) none] "f()").map
      Fragment.name = some (some "f") := by
  obtain ⟨g, hg, hgn⟩ := C5_selector_roundtrip id
    [Fragment.mk (some "function") (some "f") (some []) none] "f" (by decide)
    "f()" rfl
    (by
      intro g hg _ n ins hn _ _ _
      rcases List.mem_singleton.1 hg
      exact Option.some_inj.1 hn.symm ▸ rfl)
  rw [hg, Option.map_some', hgn]

/-! ## Event split/merge lemmas -/

theorem splitValues_eq {V : Type} (undef : V) (vm : ValueMap V) :
    ∀ ps : List Param,
      splitValues undef vm ps =
        ((ps.filter (fun p => p.indexed)).map (fun p => mapLookup undef vm p.name),
          (ps.filter (fun p => !p.indexed)).map
            (fun p => mapLookup undef vm p.name)) := by
  intro ps
  induction ps with
  | nil => rfl
  | cons p ps ih =>
    cases hp : p.indexed with
    | true => simp [splitValues, ih, hp, List.filter_cons]
    | false => simp [splitValues, ih, hp, List.filter_cons]

theorem encodeTopics_length {V : Type} (undef : V) (codec : AbiCodec V) :
    ∀ (tis : List Param) (vs : List V),
      (encodeTopics undef codec tis vs).length = tis.length
  | [], _ => rfl
  | _ :: tis, vs => by
    show (encodeTopics undef codec tis (vs.drop 1)).length + 1 = tis.length + 1
    rw [encodeTopics_length undef codec tis (vs.drop 1)]

theorem encodeTopics_get {V : Type} (undef : V) (codec : AbiCodec V) :
    ∀ (tis : List Param) (vs : List V) (j : Nat) (ti : Param) (vi : V),
      tis.get? j = some ti → vs.get? j = some vi →
      (encodeTopics undef codec tis vs).get? j = some (codec.encode [ti] [vi])
  | [], _, j, _, _, hti, _ => absurd hti (by simp)
  | t :: tis, vs, 0, ti, vi, hti, hvi => by
    have ht : t = ti := by simpa using hti
    cases vs with
    | nil => exact absurd hvi (by simp)
    | cons v vs =>
      have hv : v = vi := by simpa using hvi
      show some (codec.encode [t] [jsGet undef (v :: vs) 0]) = _
      rw [ht, hv]
      rfl
  | t :: tis, vs, j + 1, ti, vi, hti, hvi => by
    cases vs with
    | nil => exact absurd hvi (by simp)
    | cons v vs =>
      show (encodeTopics undef codec tis ((v :: vs).drop 1)).get? j = _
      exact encodeTopics_get undef codec tis vs j ti vi (by simpa using hti)
        (by simpa using hvi)

/-- C4: `encodeEvent` returns topics whose entry zero is the event topic
(the hash of the canonical signature), followed by one entry per indexed
parameter in original relative order — each produced by encoding that
single parameter alone with its value from the map — so the topics list
has length 1 + count(indexed); all non-indexed parameters are encoded
together, in original relative order, as the data payload. -/
theorem C4_encodeEvent_layout {V : Type} (sha3 : String → String)
    (codec : AbiCodec V) (undef : V) (abi : List Fragment) (nm : String)
    (vm : ValueMap V) (ev : Fragment) (ins : List Param)
    (hev : getEventByName abi nm = some ev) (hins : ev.inputs = some ins) :
    ∀ enc, encodeEvent sha3 codec undef abi nm vm = some enc →
      enc.topics.length = 1 + (ins.filter (fun p => p.indexed)).length ∧
        enc.topics.get? 0 = some (topicOf sha3 (getSignature nm ins)) ∧
        (∀ j ti, (ins.filter (fun p => p.indexed)).get? j = some ti →
          enc.topics.get? (j + 1)
            = some (codec.encode [ti] [mapLookup undef vm ti.name])) ∧
        enc.data = codec.encode (ins.filter (fun p => !p.indexed))
          ((ins.filter (fun p => !p.indexed)).map
            (fun p => mapLookup undef vm p.name)) := by
  have henc : encodeEvent sha3 codec undef abi nm vm
      = some (EventEncoding.mk
          (topicOf sha3 (getSignature nm ins)
            :: encodeTopics undef codec (ins.filter (fun p => p.indexed))
              ((ins.filter (fun p => p.indexed)).map
                (fun p => mapLookup undef vm p.name)))
          (codec.encode (ins.filter (fun p => !p.indexed))
            ((ins.filter (fun p => !p.indexed)).map
              (fun p => mapLookup undef vm p.name)))) := by
    rw [encodeEvent, hev]
    simp only [Option.bind_eq_bind, Option.some_bind, hins]
    rw [splitValues_eq]
    rfl
  intro enc henc'
  have henceq : enc = EventEncoding.mk
      (topicOf sha3 (getSignature nm ins)
        :: encodeTopics undef codec (ins.filter (fun p => p.indexed))
          ((ins.filter (fun p => p.indexed)).map
            (fun p => mapLookup undef vm p.name)))
      (codec.encode (ins.filter (fun p => !p.indexed))
        ((ins.filter (fun p => !p.indexed)).map
          (fun p => mapLookup undef vm p.name))) :=
    (Option.some_inj.1 (henc ▸ henc')).symm
  subst henceq
  refine ⟨?_, rfl, ?_, rfl⟩
  · show (encodeTopics undef codec _ _).length + 1 = _
    rw [encodeTopics_length]
    omega
  · intro j ti hti
    show (encodeTopics undef codec _ _).get? j = _
    refine encodeTopics_get undef codec _ _ j ti (mapLookup undef vm ti.name) hti ?_
    rw [List.get?_map, hti]
    rfl

/-- Witness for C4 at a concrete input: the encoding is
`{topics := ["H", "E"], data := "E"}`, with one topic entry for the single
indexed parameter after the event topic. -/
theorem C4_witness :
    encodeEvent (fun _ => "H")
        (AbiCodec.mk (fun _ _ => "E") (fun _ _ => ([] : List Nat))) 0
        [Fragment.mk (some "event") (some "T")
          (some [Param.mk "a" "uint256" [] true, Param.mk "b" "bool" [] false])
          none] "T" [("a", 1), ("b", 2)]
        = some (EventEncoding.mk ["H", "E"] "E") ∧
      (EventEncoding.mk ["H", "E"] "E").topics.length = 2 ∧
        (EventEncoding.mk ["H", "E"] "E").topics.get? 0 = some "H" ∧
        (EventEncoding.mk ["H", "E"] "E").topics.get? 1 = some "E" ∧
        (EventEncoding.mk ["H", "E"] "E").data = "E" := by
  have T := C4_encodeEvent_layout (fun _ => "H")
    (AbiCodec.mk (fun _ _ => "E") (fun _ _ => ([] : List Nat))) 0
    [Fragment.mk (some "event") (some "T")
      (some [Param.mk "a" "uint256" [] true, Param.mk "b" "bool" [] false]) none]
    "T" [("a", 1), ("b", 2)]
    (Fragment.mk (some "event") (some "T")
      (some [Param.mk "a" "uint256" [] true, Param.mk "b" "bool" [] false]) none)
    [Param.mk "a" "uint256" [] true, Param.mk "b" "bool" [] false]
    rfl rfl (EventEncoding.mk ["H", "E"] "E") rfl
  exact ⟨rfl, T.1, T.2.1, T.2.2.1 0 (Param.mk "a" "uint256" [] true) rfl, T.2.2.2⟩

theorem jsGet_tail {V : Type} (undef : V) (l : List V) (i : Nat) :
    jsGet undef l.tail i = jsGet undef l (i + 1) := by
  rw [jsGet, jsGet, ← List.drop_one, List.get?_drop, Nat.add_comm]

theorem mergeValues_length {V : Type} (undef : V) :
    ∀ (ps : List Param) (ts ds : List V),
      (mergeValues undef ps ts ds).length = ps.length
  | [], _, _ => rfl
  | p :: ps, ts, ds => by
    simp only [mergeValues]
    cases hp : p.indexed with
    | true =>
      simp [mergeValues_length undef ps ts.tail ds]
    | false =>
      simp [mergeValues_length undef ps ts ds.tail]

theorem mergeValues_get {V : Type} (undef : V) :
    ∀ (ps : List Param) (ts ds : List V) (k : Nat) (p : Param),
      ps.get? k = some p →
      (mergeValues undef ps ts ds).get? k =
        some (if p.indexed then
            jsGet undef ts ((ps.take k).countP (fun q => q.indexed))
          else
            jsGet undef ds ((ps.take k).countP (fun q => !q.indexed)))
  | [], _, _, _, _, hk => absurd hk (by simp)
  | q :: ps, ts, ds, 0, p, hk => by
    have hq : q = p := by simpa using hk
    subst hq
    simp only [mergeValues]
    cases hq : q.indexed with
    | true => simp [hq]
    | false => simp [hq]
  | q :: ps, ts, ds, k + 1, p, hk => by
    have hk' : ps.get? k = some p := by simpa using hk
    simp only [mergeValues]
    cases hq : q.indexed with
    | true =>
      rw [if_pos rfl, List.get?_cons_succ,
        mergeValues_get undef ps (ts.drop 1) ds k p hk']
      rw [show (q :: ps).take (k + 1) = q :: ps.take k from rfl,
        List.countP_cons, List.countP_cons]
      simp only [hq, Bool.not_true, decide_True, decide_False]
      rcases hpi : p.indexed with _ | _
      · simp [hpi]
      · simp [hpi, jsGet_tail]
    | false =>
      rw [if_neg (by simp), List.get?_cons_succ,
        mergeValues_get undef ps ts (ds.drop 1) k p hk']
      rw [show (q :: ps).take (k + 1) = q :: ps.take k from rfl,
        List.countP_cons, List.countP_cons]
      simp only [hq, Bool.not_false, decide_True, decide_False]
      rcases hpi : p.indexed with _ | _
      · simp [hpi, jsGet_tail]
      · simp [hpi]

theorem decodeTopics_spec {V : Type} (undef : V) (codec : AbiCodec V) :
    ∀ (tis : List Param) (ts : List String) (vs : List V),
      decodeTopics undef codec tis ts = some vs →
      vs.length = tis.length ∧
        ∀ j ti, tis.get? j = some ti → ∃ t, ts.get? j = some t ∧
          vs.get? j = some (jsGet undef (codec.decode [ti] t) 0)
  | [], _, vs, h => by
    have hvs : vs = [] := by
      rw [decodeTopics] at h
      simpa using h.symm
    subst hvs
    exact ⟨rfl, fun j ti hti => absurd hti (by simp)⟩
  | _ :: _, [], vs, h => by
    rw [decodeTopics] at h
    exact absurd h (by simp)
  | ti0 :: tis, t0 :: ts, vs, h => by
    rw [decodeTopics] at h
    rcases hrec : decodeTopics undef codec tis ts with _ | vs'
    · rw [hrec] at h
      exact absurd h (by simp)
    · rw [hrec] at h
      have hvs : vs = jsGet undef (codec.decode [ti0] t0) 0 :: vs' := by
        simpa using h.symm
      subst hvs
      obtain ⟨hlen, hspec⟩ := decodeTopics_spec undef codec tis ts vs' hrec
      refine ⟨by simp [hlen], ?_⟩
      intro j ti hti
      cases j with
      | zero =>
        have : ti0 = ti := by simpa using hti
        subst this
        exact ⟨t0, rfl, rfl⟩
      | succ j =>
        obtain ⟨t, ht, hv⟩ := hspec j ti (by simpa using hti)
        exact ⟨t, by simpa using ht, by simpa using hv⟩

theorem filter_get_countP {α : Type} (p : α → Bool) :
    ∀ (l : List α) (k : Nat) (x : α), l.get? k = some x → p x = true →
      (l.filter p).get? ((l.take k).countP p) = some x
  | [], _, _, hk, _ => absurd hk (by simp)
  | a :: l, 0, x, hk, hx => by
    have ha : a = x := by simpa using hk
    subst ha
    rw [List.filter_cons_of_pos hx]
    rfl
  | a :: l, k + 1, x, hk, hx => by
    have hk' : l.get? k = some x := by simpa using hk
    have ih := filter_get_countP p l k x hk' hx
    rw [show (a :: l).take (k + 1) = a :: l.take k from rfl, List.countP_cons]
    cases hpa : p a with
    | true =>
      rw [List.filter_cons_of_pos hpa]
      simpa using ih
    | false =>
      rw [List.filter_cons_of_neg (by simp [hpa])]
      simpa using ih

/-- C1: `decodeEvent` reassembles one value sequence in the fragment's
original top-level declaration order: walking the inputs once, the `k`-th
parameter receives the next topic-decoded value (from topic entries 1..n,
in order, each decoded alone against its own topic entry) when indexed and
the next data-decoded value otherwise; the returned `Event` carries this
sequence (zipped with the parameter names by `toValueMap`). -/
theorem C1_decodeEvent_order {V : Type} (sha3 : String → String)
    (codec : AbiCodec V) (undef : V) (abi : List Fragment)
    (topics : List String) (data : String) (ev : Fragment) (ins : List Param)
    (n : String) (topicVals dataVals merged : List V)
    (hev : getEventByTopic sha3 abi (topics.get? 0) = some ev)
    (hins : ev.inputs = some ins) (hn : ev.name = some n) (hne : n ≠ "")
    (htv : decodeTopics undef codec (ins.filter (fun p => p.indexed))
      (topics.drop 1) = some topicVals)
    (hdv : dataVals = codec.decode (ins.filter (fun p => !p.indexed)) data)
    (hmg : merged = mergeValues undef ins topicVals dataVals) :
    decodeEvent sha3 codec undef abi topics data
        = some (Event.mk n ins (List.zipWith (fun v p => (p.name, v)) merged ins)) ∧
      merged.length = ins.length ∧
      (∀ k p, ins.get? k = some p → p.indexed = true →
        ∃ t, topics.get? ((ins.take k).countP (fun q => q.indexed) + 1) = some t ∧
          merged.get? k = some (jsGet undef (codec.decode [p] t) 0)) ∧
      (∀ k p, ins.get? k = some p → p.indexed = false →
        merged.get? k
          = some (jsGet undef dataVals
              ((ins.take k).countP (fun q => !q.indexed)))) := by
  subst hdv
  subst hmg
  have hlen := mergeValues_length undef ins topicVals
    (codec.decode (List.filter (fun p => !p.indexed) ins) data)
  refine ⟨?_, hlen, ?_, ?_⟩
  · simp only [decodeEvent, Option.bind_eq_bind, hev, Option.some_bind, hins, htv, hn]
    rw [if_neg hne]
    rw [toValueMap, if_pos (le_of_eq hlen)]
    rfl
  · intro k p hk hpi
    have hfil := filter_get_countP (fun q => q.indexed) ins k p hk hpi
    obtain ⟨t, ht, hv⟩ :=
      (decodeTopics_spec undef codec _ _ _ htv).2 _ p hfil
    refine ⟨t, ?_, ?_⟩
    · rw [List.get?_drop] at ht
      rw [Nat.add_comm]
      exact ht
    · rw [mergeValues_get undef ins topicVals _ k p hk, if_pos hpi]
      rw [jsGet, hv]
      rfl
  · intro k p hk hpi
    rw [mergeValues_get undef ins topicVals _ k p hk, if_neg (by simp [hpi])]

/-- Witness for C1 at a concrete input: one indexed and one non-indexed
parameter, decoded values interleaved back in declaration order. -/
theorem C1_witness :
    decodeEvent (fun _ => "H") (AbiCodec.mk (fun _ _ => "E") (fun _ _ => [5])) 0
        [Fragment.mk (some "event") (some "T")
          (some [Param.mk "a" "uint256" [] true, Param.mk "b" "bool" [] false])
          none]
        ["H", "t1"] "D"
      = some (Event.mk "T"
          [Param.mk "a" "uint256" [] true, Param.mk "b" "bool" [] false]
          [("a", 5), ("b", 5)]) := by
  have T := C1_decodeEvent_order (fun _ => "H")
    (AbiCodec.mk (fun _ _ => "E") (fun _ _ => [5])) 0
    [Fragment.mk (some "event") (some "T")
      (some [Param.mk "a" "uint256" [] true, Param.mk "b" "bool" [] false]) none]
    ["H", "t1"] "D"
    (Fragment.mk (some "event") (some "T")
      (some [Param.mk "a" "uint256" [] true, Param.mk "b" "bool" [] false]) none)
    [Param.mk "a" "uint256" [] true, Param.mk "b" "bool" [] false]
    "T" [5] [5] [5, 5] rfl rfl rfl (by decide) rfl rfl rfl
  exact T.1

end AbiCoder
